import Mathlib

/-!
# Verification of the `bloom` Bloom-filter library

Shallow embedding of `src/bloom/bloom.py` (class `BloomFilter`).

Modelling decisions:

* Python's arbitrary-precision `int` used as bit memory becomes `ℕ` with
  `|||` (bitwise or) and `1 <<< idx` (shift), exactly as the source writes
  `self._memory |= 1 << idx` and `(self._memory | (1 << idx)) == self._memory`.
* Elements are a sum type `PyElem`: integers (pre-normalised through Python's
  `bin`), strings (hashed directly), and a constructor for values whose type
  `mmh3.hash64` cannot hash (in Python these raise `TypeError`, the spec's
  `HashingError`).
* `mmh3.hash64` is an external C library; it is modelled as an arbitrary
  function `Hash64 := String → ℤ × ℤ` and every theorem is proved for all
  such functions.  Python's `%` on a positive modulus agrees with `Int.emod`.
* `math.log` / `math.ceil` floating-point sizing arithmetic is modelled with
  exact real logarithms (`Real.logb`) and `Int.ceil`, the formulas the source
  writes; only those two sizing definitions are noncomputable.
* Exceptions become `Except BloomError`; `ValueError` at construction is the
  spec's `InvalidParameter`, the hashing `TypeError` is the spec's
  `HashingError`.  A raised exception leaves the filter unchanged, which the
  embedding renders by returning no filter at all on `.error`.
-/

namespace Bloom

/-- The two error conditions of the library: `ValueError` from `_check_args`
(the spec's `InvalidParameter`) and the `TypeError` escaping `mmh3.hash64`
(the spec's `HashingError`). -/
inductive BloomError where
  | invalidParameter
  | hashingError
deriving DecidableEq, Repr

/-- A Python value passed to `add` / `__contains__`: an `int`, a `str`, or a
value of a type `mmh3.hash64` cannot hash (tagged so that distinct unhashable
values exist). -/
inductive PyElem where
  | int (z : ℤ)
  | str (s : String)
  | other (tag : ℕ)
deriving DecidableEq, Repr

/-- Python's `bin`: the textual binary-literal rendering of an integer,
`bin 5 = "0b101"`, `bin (-5) = "-0b101"`, `bin 0 = "0b0"`. -/
def bin (z : ℤ) : String :=
  if z < 0 then "-0b" ++ ⟨Nat.toDigits 2 z.natAbs⟩
  else "0b" ++ ⟨Nat.toDigits 2 z.natAbs⟩

/-- The pre-hash normalisation at the top of `_hash_element`:
`if isinstance(element, int): element = bin(element)`; a `str` is passed
through; any other value makes `mmh3.hash64` raise (`none`). -/
def normalize : PyElem → Option String
  | .int z => some (bin z)
  | .str s => some s
  | .other _ => none

/-- The state of a `BloomFilter` instance: public attributes `n`, `fp_rate`,
derived `_k` and `_m`, and the big-integer bit memory `_memory`. -/
structure BloomFilter where
  n : ℤ
  fp_rate : ℚ
  k : ℕ
  m : ℕ
  memory : ℕ
deriving DecidableEq, Repr

/-- The external `mmh3.hash64`: two signed 64-bit halves of a 128-bit hash.
Modelled as an arbitrary pair-valued function on the hashed text. -/
def Hash64 : Type := String → ℤ × ℤ

/-- The generator expression of `_hash_element`:
`(h1 + i * h2) % self._m + i * self._m for i in range(self._k)`. -/
def hashIndices (hash64 : Hash64) (k m : ℕ) (s : String) : List ℤ :=
  (List.range k).map fun (i : ℕ) =>
    ((hash64 s).1 + (i : ℤ) * (hash64 s).2) % (m : ℤ) + (i : ℤ) * (m : ℤ)

/-- `_hash_element`: normalise the element, hash it, derive the `k` indices;
an unhashable element raises before any index is produced. -/
def hash_element (hash64 : Hash64) (f : BloomFilter) (e : PyElem) :
    Except BloomError (List ℤ) :=
  match normalize e with
  | some s => .ok (hashIndices hash64 f.k f.m s)
  | none => .error .hashingError

/-- One iteration of the loop body of `add`: `self._memory |= 1 << idx`. -/
def setBit (mem : ℕ) (idx : ℤ) : ℕ := mem ||| (1 <<< idx.toNat)

/-- `add`: hash the element and set each derived bit, in place.  The hash is
computed before the loop starts, so a hashing failure mutates nothing. -/
def add (hash64 : Hash64) (f : BloomFilter) (e : PyElem) :
    Except BloomError BloomFilter :=
  (hash_element hash64 f e).map fun idxs =>
    { f with memory := idxs.foldl setBit f.memory }

/-- One conjunct of `__contains__`:
`(self._memory | (1 << idx)) == self._memory`. -/
def bitSet (mem : ℕ) (idx : ℤ) : Bool := (mem ||| (1 <<< idx.toNat)) == mem

/-- `__contains__`: `all(...)` over the element's derived indices; read-only,
and it raises exactly when `_hash_element` does. -/
def contains (hash64 : Hash64) (f : BloomFilter) (e : PyElem) :
    Except BloomError Bool :=
  (hash_element hash64 f e).map fun idxs => idxs.all (bitSet f.memory)

/-- `_clear`: `self._memory = int(0)`. -/
def clear (f : BloomFilter) : BloomFilter := { f with memory := 0 }

/-- The state reached after calling `add` whether or not it raises: on a
`HashingError` the exception propagates and the filter is left as it was.
Used to speak about the state after an arbitrary sequence of `add` calls. -/
def addTolerant (hash64 : Hash64) (f : BloomFilter) (e : PyElem) : BloomFilter :=
  match add hash64 f e with
  | .ok f' => f'
  | .error _ => f

/-- The state after a sequence of `add` calls, left to right. -/
def addMany (hash64 : Hash64) (f : BloomFilter) (es : List PyElem) : BloomFilter :=
  es.foldl (addTolerant hash64) f

/-- `_check_args`: `n` must be a positive integer, `fp_rate` a float in the
open interval (0, 1); the two checks run in source order. -/
def check_args (n : ℤ) (fp_rate : ℚ) : Except BloomError Unit :=
  if n ≤ 0 then .error .invalidParameter
  else if ¬(0 < fp_rate ∧ fp_rate < 1) then .error .invalidParameter
  else .ok ()

/-- First half of `_calculate_sizes`:
`self._k = int(math.ceil(math.log(1.0 / self.fp_rate, 2)))`, with the
floating-point logarithm modelled exactly. -/
noncomputable def calc_k (fp_rate : ℚ) : ℤ :=
  ⌈Real.logb 2 (1 / (fp_rate : ℝ))⌉

/-- Second half of `_calculate_sizes`:
`self._m = int(math.ceil(self.n * math.log(1 / self.fp_rate, 2)
* math.log(math.exp(1), 2) / self._k))`. -/
noncomputable def calc_m (n : ℤ) (fp_rate : ℚ) (k : ℤ) : ℤ :=
  ⌈(n : ℝ) * Real.logb 2 (1 / (fp_rate : ℝ)) * Real.logb 2 (Real.exp 1) / (k : ℝ)⌉

/-- `__init__` / the spec's `new`: validate, then size, then zero the memory.
Validation runs first; on failure no filter is produced at all. -/
noncomputable def new (n : ℤ) (fp_rate : ℚ) : Except BloomError BloomFilter :=
  match check_args n fp_rate with
  | .error e => .error e
  | .ok _ =>
    let k := calc_k fp_rate
    let m := calc_m n fp_rate k
    .ok { n := n, fp_rate := fp_rate, k := k.toNat, m := m.toNat, memory := 0 }

/-- The bits one pass of the `add` loop ORs together for a list of indices. -/
def orMask (l : List ℤ) : ℕ := l.foldl setBit 0

/-- The bits one `add` call contributes for one element: nothing when the
element is unhashable. -/
def elemMask (hash64 : Hash64) (k m : ℕ) (e : PyElem) : ℕ :=
  match normalize e with
  | some s => orMask (hashIndices hash64 k m s)
  | none => 0

/-- The bits a whole sequence of `add` calls contributes. -/
def maskFold (hash64 : Hash64) (k m : ℕ) (es : List PyElem) : ℕ :=
  es.foldl (fun a e => a ||| elemMask hash64 k m e) 0

/-- A concrete stand-in for `mmh3.hash64`, for evaluating the model. -/
def w64 : Hash64 := fun _ => (0, 0)

/-- A concrete empty filter state (`k = 2`, `m = 3`). -/
def wf0 : BloomFilter := ⟨100, 1/100, 2, 3, 0⟩

/-- `wf0` after `add` of an element whose indices are 0 and 3. -/
def wf1 : BloomFilter := ⟨100, 1/100, 2, 3, 9⟩

theorem foldl_setBit (l : List ℤ) (mem : ℕ) :
    l.foldl setBit mem = mem ||| orMask l := by
  induction l generalizing mem with
  | nil => exact (Nat.or_zero mem).symm
  | cons i l ih =>
    show (l.foldl setBit (setBit mem i)) = mem ||| orMask (i :: l)
    have h1 : orMask (i :: l) = setBit 0 i ||| orMask l := by
      show l.foldl setBit (setBit 0 i) = _
      exact ih (setBit 0 i)
    rw [ih (setBit mem i), h1, setBit, setBit, Nat.zero_or, Nat.lor_assoc]

theorem bitSet_lor_left (mem x : ℕ) (i : ℤ) (h : bitSet mem i = true) :
    bitSet (mem ||| x) i = true := by
  have h' : mem ||| (1 <<< i.toNat) = mem := by
    simpa [bitSet] using h
  have : mem ||| x ||| (1 <<< i.toNat) = mem ||| x := by
    rw [Nat.lor_assoc, Nat.lor_comm x _, ← Nat.lor_assoc, h']
  simpa [bitSet] using this

theorem bitSet_lor_self (mem : ℕ) (i : ℤ) :
    bitSet (mem ||| (1 <<< i.toNat)) i = true := by
  have : mem ||| (1 <<< i.toNat) ||| (1 <<< i.toNat) = mem ||| (1 <<< i.toNat) := by
    rw [Nat.lor_assoc, Nat.or_self]
  simpa [bitSet] using this

theorem bitSet_orMask (mem : ℕ) (l : List ℤ) (i : ℤ) (h : i ∈ l) :
    bitSet (mem ||| orMask l) i = true := by
  induction l generalizing mem with
  | nil => cases h
  | cons a l ih =>
    have hmask : orMask (a :: l) = setBit 0 a ||| orMask l := by
      show l.foldl setBit (setBit 0 a) = _
      exact foldl_setBit l (setBit 0 a)
    rw [hmask, setBit, Nat.zero_or, ← Nat.lor_assoc]
    rcases List.mem_cons.mp h with rfl | hl
    · exact bitSet_lor_left _ _ _ (bitSet_lor_self mem i)
    · exact ih _ hl

theorem add_ok_eq (hash64 : Hash64) (f : BloomFilter) (e : PyElem) (s : String)
    (h : normalize e = some s) :
    add hash64 f e =
      .ok { f with memory := f.memory ||| orMask (hashIndices hash64 f.k f.m s) } := by
  rw [add, hash_element, h]
  simp only [Except.map, foldl_setBit]

theorem add_err_eq (hash64 : Hash64) (f : BloomFilter) (e : PyElem)
    (h : normalize e = none) :
    add hash64 f e = .error .hashingError := by
  rw [add, hash_element, h]
  rfl

theorem addTolerant_eq (hash64 : Hash64) (f : BloomFilter) (e : PyElem) :
    addTolerant hash64 f e = { f with memory := f.memory ||| elemMask hash64 f.k f.m e } := by
  cases h : normalize e with
  | some s =>
    rw [addTolerant, add_ok_eq hash64 f e s h, elemMask, h]
  | none =>
    rw [addTolerant, add_err_eq hash64 f e h, elemMask, h, Nat.or_zero]

theorem contains_eq_all (hash64 : Hash64) (f : BloomFilter) (e : PyElem) (s : String)
    (h : normalize e = some s) :
    contains hash64 f e =
      .ok ((hashIndices hash64 f.k f.m s).all (bitSet f.memory)) := by
  rw [contains, hash_element, h]
  rfl

theorem contains_err_eq (hash64 : Hash64) (f : BloomFilter) (e : PyElem)
    (h : normalize e = none) :
    contains hash64 f e = .error .hashingError := by
  rw [contains, hash_element, h]
  rfl

theorem contains_after_add (hash64 : Hash64) (f f' : BloomFilter) (e : PyElem)
    (h : add hash64 f e = .ok f') : contains hash64 f' e = .ok true := by
  cases hn : normalize e with
  | none => rw [add_err_eq hash64 f e hn] at h; cases h
  | some s =>
    rw [add_ok_eq hash64 f e s hn] at h
    cases h
    rw [contains_eq_all hash64 _ e s hn]
    have : ∀ i ∈ hashIndices hash64 f.k f.m s,
        bitSet (f.memory ||| orMask (hashIndices hash64 f.k f.m s)) i = true :=
      fun i hi => bitSet_orMask f.memory _ i hi
    simp only [List.all_eq_true]
    exact congrArg Except.ok (by simpa [List.all_eq_true] using this)

theorem foldl_lor_hoist (g : PyElem → ℕ) (es : List PyElem) (x : ℕ) :
    es.foldl (fun a e => a ||| g e) x = x ||| es.foldl (fun a e => a ||| g e) 0 := by
  induction es generalizing x with
  | nil => exact (Nat.or_zero x).symm
  | cons e es ih =>
    show es.foldl _ (x ||| g e) = x ||| es.foldl _ (0 ||| g e)
    rw [ih (x ||| g e), ih (0 ||| g e), Nat.zero_or, Nat.lor_assoc]

theorem maskFold_cons (hash64 : Hash64) (k m : ℕ) (e : PyElem) (es : List PyElem) :
    maskFold hash64 k m (e :: es) =
      elemMask hash64 k m e ||| maskFold hash64 k m es := by
  show es.foldl _ (0 ||| elemMask hash64 k m e) = _
  rw [foldl_lor_hoist (elemMask hash64 k m) es, Nat.zero_or]
  rfl

theorem addMany_eq (hash64 : Hash64) (es : List PyElem) (f : BloomFilter) :
    addMany hash64 f es = { f with memory := f.memory ||| maskFold hash64 f.k f.m es } := by
  induction es generalizing f with
  | nil =>
    show f = { f with memory := f.memory ||| 0 }
    rw [Nat.or_zero]
  | cons e es ih =>
    show addMany hash64 (addTolerant hash64 f e) es = _
    rw [ih (addTolerant hash64 f e), addTolerant_eq, maskFold_cons, ← Nat.lor_assoc]

theorem contains_true_mono (hash64 : Hash64) (f f' : BloomFilter) (e : PyElem) (x : ℕ)
    (hk : f'.k = f.k) (hm : f'.m = f.m) (hmem : f'.memory = f.memory ||| x)
    (h : contains hash64 f e = .ok true) : contains hash64 f' e = .ok true := by
  cases hn : normalize e with
  | none => rw [contains_err_eq hash64 f e hn] at h; cases h
  | some s =>
    rw [contains_eq_all hash64 f e s hn] at h
    rw [contains_eq_all hash64 f' e s hn, hk, hm, hmem]
    have hall := List.all_eq_true.mp (Except.ok.inj h)
    refine congrArg Except.ok (List.all_eq_true.mpr ?_)
    exact fun i hi => bitSet_lor_left f.memory x i (hall i hi)

/-- C1: after a successful `add e`, `contains e` returns true, and it still
returns true after any further sequence of `add` calls (`addMany`, which never
clears a bit): membership once reported is permanent until a reset. -/
theorem no_false_negatives (hash64 : Hash64) (f f' : BloomFilter) (e : PyElem)
    (es : List PyElem) (h : add hash64 f e = Except.ok f') :
    contains hash64 f' e = Except.ok true ∧
    contains hash64 (addMany hash64 f' es) e = Except.ok true := by
  have h1 := contains_after_add hash64 f f' e h
  refine ⟨h1, ?_⟩
  have hmany := addMany_eq hash64 es f'
  exact contains_true_mono hash64 f' (addMany hash64 f' es) e
    (maskFold hash64 f'.k f'.m es) (by rw [hmany]) (by rw [hmany]) (by rw [hmany]) h1

/-- Witness for C1: a concrete filter (`k = 2`, `m = 3`), a concrete hash
function, the element `5`, and two further adds (one of them unhashable). -/
theorem no_false_negatives_witness :
    contains w64 wf1 (PyElem.int 5) = Except.ok true ∧
    contains w64 (addMany w64 wf1 [PyElem.str "x", PyElem.other 3]) (PyElem.int 5) =
      Except.ok true :=
  no_false_negatives w64 wf0 wf1 (PyElem.int 5) [PyElem.str "x", PyElem.other 3] rfl

theorem check_args_ok (n : ℤ) (fp_rate : ℚ) (h : 0 < n ∧ 0 < fp_rate ∧ fp_rate < 1) :
    check_args n fp_rate = .ok () := by
  rw [check_args, if_neg (by omega), if_neg (not_not_intro ⟨h.2.1, h.2.2⟩)]

theorem check_args_err (n : ℤ) (fp_rate : ℚ) (h : ¬(0 < n ∧ 0 < fp_rate ∧ fp_rate < 1)) :
    check_args n fp_rate = .error .invalidParameter := by
  rw [check_args]
  by_cases h1 : n ≤ 0
  · rw [if_pos h1]
  · have h2 : ¬(0 < fp_rate ∧ fp_rate < 1) := fun hc => h ⟨by omega, hc.1, hc.2⟩
    rw [if_neg h1, if_pos h2]

theorem new_ok (n : ℤ) (fp_rate : ℚ) (h : 0 < n ∧ 0 < fp_rate ∧ fp_rate < 1) :
    new n fp_rate = .ok ⟨n, fp_rate, (calc_k fp_rate).toNat,
      (calc_m n fp_rate (calc_k fp_rate)).toNat, 0⟩ := by
  rw [new, check_args_ok n fp_rate h]

theorem new_err (n : ℤ) (fp_rate : ℚ) (h : ¬(0 < n ∧ 0 < fp_rate ∧ fp_rate < 1)) :
    new n fp_rate = .error .invalidParameter := by
  rw [new, check_args_err n fp_rate h]

/-- C2: construction fails with `InvalidParameter` exactly when `n` is not a
positive integer or `fp_rate` is not strictly between 0 and 1; the five listed
invalid calls fail, `new 100 (1/100)` succeeds, and on failure no filter value
is produced at all (the `Except` carries only the error). -/
theorem parameter_validation :
    (∀ (n : ℤ) (fp_rate : ℚ),
      (∃ f, new n fp_rate = .ok f) ↔ (0 < n ∧ 0 < fp_rate ∧ fp_rate < 1)) ∧
    (∀ (n : ℤ) (fp_rate : ℚ),
      new n fp_rate = .error .invalidParameter ↔
        ¬(0 < n ∧ 0 < fp_rate ∧ fp_rate < 1)) ∧
    new 0 (1/100) = .error .invalidParameter ∧
    new (-5) (1/100) = .error .invalidParameter ∧
    new 100 0 = .error .invalidParameter ∧
    new 100 1 = .error .invalidParameter ∧
    new 100 (3/2) = .error .invalidParameter ∧
    (∃ f, new 100 (1/100) = .ok f) := by
  refine ⟨fun n fp_rate => ⟨?_, fun h => ⟨_, new_ok n fp_rate h⟩⟩,
    fun n fp_rate => ⟨?_, new_err n fp_rate⟩,
    new_err _ _ (by norm_num), new_err _ _ (by norm_num), new_err _ _ (by norm_num),
    new_err _ _ (by norm_num), new_err _ _ (by norm_num),
    ⟨_, new_ok 100 (1/100) ⟨by norm_num, by norm_num, by norm_num⟩⟩⟩
  · rintro ⟨f, hf⟩
    by_contra h
    rw [new_err n fp_rate h] at hf
    cases hf
  · intro h
    by_contra hv
    rw [new_ok n fp_rate (by tauto)] at h
    cases h

theorem logb_one_div_pos (fp_rate : ℚ) (h0 : 0 < fp_rate) (h1 : fp_rate < 1) :
    0 < Real.logb 2 (1 / (fp_rate : ℝ)) := by
  apply Real.logb_pos one_lt_two
  rw [lt_div_iff₀ (by exact_mod_cast h0), one_mul]
  exact_mod_cast h1

theorem calc_k_pos (fp_rate : ℚ) (h0 : 0 < fp_rate) (h1 : fp_rate < 1) :
    0 < calc_k fp_rate :=
  Int.ceil_pos.mpr (logb_one_div_pos fp_rate h0 h1)

theorem logb_two_exp_pos : 0 < Real.logb 2 (Real.exp 1) := by
  rw [Real.logb, Real.log_exp]
  exact div_pos one_pos (Real.log_pos one_lt_two)

theorem calc_m_pos (n : ℤ) (fp_rate : ℚ) (hn : 0 < n) (h0 : 0 < fp_rate)
    (h1 : fp_rate < 1) : 0 < calc_m n fp_rate (calc_k fp_rate) := by
  apply Int.ceil_pos.mpr
  apply div_pos
  · exact mul_pos (mul_pos (by exact_mod_cast hn) (logb_one_div_pos fp_rate h0 h1))
      logb_two_exp_pos
  · exact_mod_cast calc_k_pos fp_rate h0 h1

/-- C3: every successfully constructed filter has
`k = ceil(log2(1/fp_rate))` and `m = ceil(n * log2(1/fp_rate) * log2(e) / k)`,
both at least 1, and `add` (in either outcome) and `_clear` never change `k`
or `m`. -/
theorem sizing_formulas (n : ℤ) (fp_rate : ℚ) (hn : 0 < n) (h0 : 0 < fp_rate)
    (h1 : fp_rate < 1) :
    ∃ f, new n fp_rate = .ok f ∧
      (f.k : ℤ) = ⌈Real.logb 2 (1 / (fp_rate : ℝ))⌉ ∧
      (f.m : ℤ) = ⌈(n : ℝ) * Real.logb 2 (1 / (fp_rate : ℝ)) *
        Real.logb 2 (Real.exp 1) / (f.k : ℝ)⌉ ∧
      1 ≤ f.k ∧ 1 ≤ f.m ∧
      ∀ hash64 e, (addTolerant hash64 f e).k = f.k ∧ (addTolerant hash64 f e).m = f.m ∧
        (clear f).k = f.k ∧ (clear f).m = f.m := by
  have hk := calc_k_pos fp_rate h0 h1
  have hm := calc_m_pos n fp_rate hn h0 h1
  have hkz : (((calc_k fp_rate).toNat : ℕ) : ℤ) = calc_k fp_rate :=
    Int.toNat_of_nonneg (le_of_lt hk)
  refine ⟨_, new_ok n fp_rate ⟨hn, h0, h1⟩, ?_, ?_,
    (by show 1 ≤ (calc_k fp_rate).toNat; omega),
    (by show 1 ≤ (calc_m n fp_rate (calc_k fp_rate)).toNat; omega), ?_⟩
  · exact hkz
  · show (((calc_m n fp_rate (calc_k fp_rate)).toNat : ℕ) : ℤ) = _
    rw [Int.toNat_of_nonneg (le_of_lt hm), calc_m]
    congr 2
    rw [← hkz]
    push_cast
    rfl
  · intro hash64 e
    refine ⟨?_, ?_, rfl, rfl⟩ <;> rw [addTolerant_eq]

/-- Witness for C3 at `n = 100`, `fp_rate = 1/100`. -/
theorem sizing_formulas_witness :
    ∃ f, new 100 (1/100) = .ok f ∧
      (f.k : ℤ) = ⌈Real.logb 2 (1 / ((1/100 : ℚ) : ℝ))⌉ ∧
      (f.m : ℤ) = ⌈((100 : ℤ) : ℝ) * Real.logb 2 (1 / ((1/100 : ℚ) : ℝ)) *
        Real.logb 2 (Real.exp 1) / (f.k : ℝ)⌉ ∧
      1 ≤ f.k ∧ 1 ≤ f.m ∧
      ∀ hash64 e, (addTolerant hash64 f e).k = f.k ∧ (addTolerant hash64 f e).m = f.m ∧
        (clear f).k = f.k ∧ (clear f).m = f.m :=
  sizing_formulas 100 (1/100) (by norm_num) (by norm_num) (by norm_num)

/-- C4: for every hashable text, the derivation yields exactly `k` offsets,
the `i`-th equal to `(h1 + i*h2) mod m + i*m`, lying in partition `i` (the
range `[i*m, (i+1)*m)`), hence in `[0, k*m)`, and its partition number
(offset divided by `m`) is exactly `i`, so distinct offsets never share a
partition. -/
theorem index_derivation (hash64 : Hash64) (k m : ℕ) (s : String) (i : ℕ)
    (hm : 0 < m) (hi : i < k) :
    (hashIndices hash64 k m s).length = k ∧
    (hashIndices hash64 k m s).get? i =
      some (((hash64 s).1 + (i : ℤ) * (hash64 s).2) % (m : ℤ) + (i : ℤ) * (m : ℤ)) ∧
    (i : ℤ) * (m : ℤ) ≤
      ((hash64 s).1 + (i : ℤ) * (hash64 s).2) % (m : ℤ) + (i : ℤ) * (m : ℤ) ∧
    ((hash64 s).1 + (i : ℤ) * (hash64 s).2) % (m : ℤ) + (i : ℤ) * (m : ℤ) <
      ((i : ℤ) + 1) * (m : ℤ) ∧
    0 ≤ ((hash64 s).1 + (i : ℤ) * (hash64 s).2) % (m : ℤ) + (i : ℤ) * (m : ℤ) ∧
    ((hash64 s).1 + (i : ℤ) * (hash64 s).2) % (m : ℤ) + (i : ℤ) * (m : ℤ) <
      (k : ℤ) * (m : ℤ) ∧
    (((hash64 s).1 + (i : ℤ) * (hash64 s).2) % (m : ℤ) + (i : ℤ) * (m : ℤ)) / (m : ℤ) =
      (i : ℤ) := by
  have hmz : (m : ℤ) ≠ 0 := by exact_mod_cast Nat.pos_iff_ne_zero.mp hm
  have hmz' : (0 : ℤ) < (m : ℤ) := by exact_mod_cast hm
  have hr0 : 0 ≤ ((hash64 s).1 + (i : ℤ) * (hash64 s).2) % (m : ℤ) :=
    Int.emod_nonneg _ hmz
  have hrm : ((hash64 s).1 + (i : ℤ) * (hash64 s).2) % (m : ℤ) < (m : ℤ) :=
    Int.emod_lt_of_pos _ hmz'
  have hik : (i : ℤ) + 1 ≤ (k : ℤ) := by exact_mod_cast hi
  have hup : ((i : ℤ) + 1) * (m : ℤ) ≤ (k : ℤ) * (m : ℤ) :=
    mul_le_mul_of_nonneg_right hik (by positivity)
  have hB : ((hash64 s).1 + (i : ℤ) * (hash64 s).2) % (m : ℤ) + (i : ℤ) * (m : ℤ) <
      ((i : ℤ) + 1) * (m : ℤ) := by
    rw [add_one_mul]
    linarith
  refine ⟨?_, ?_, le_add_of_nonneg_left hr0, hB,
    add_nonneg hr0 (by positivity), lt_of_lt_of_le hB hup, ?_⟩
  · simp only [hashIndices, List.length_map, List.length_range]
  · simp only [hashIndices, List.get?_map, List.get?_range hi]
    rfl
  · rw [Int.add_mul_ediv_right _ _ hmz, Int.ediv_eq_zero_of_lt hr0 hrm, zero_add]

/-- Witness for C4: `k = 2`, `m = 3`, the constant hash, index `i = 1`. -/
theorem index_derivation_witness :
    (hashIndices w64 2 3 "x").length = 2 ∧
    (hashIndices w64 2 3 "x").get? 1 =
      some (((w64 "x").1 + (1 : ℤ) * (w64 "x").2) % (3 : ℤ) + (1 : ℤ) * (3 : ℤ)) ∧
    (1 : ℤ) * (3 : ℤ) ≤
      ((w64 "x").1 + (1 : ℤ) * (w64 "x").2) % (3 : ℤ) + (1 : ℤ) * (3 : ℤ) ∧
    ((w64 "x").1 + (1 : ℤ) * (w64 "x").2) % (3 : ℤ) + (1 : ℤ) * (3 : ℤ) <
      ((1 : ℤ) + 1) * (3 : ℤ) ∧
    0 ≤ ((w64 "x").1 + (1 : ℤ) * (w64 "x").2) % (3 : ℤ) + (1 : ℤ) * (3 : ℤ) ∧
    ((w64 "x").1 + (1 : ℤ) * (w64 "x").2) % (3 : ℤ) + (1 : ℤ) * (3 : ℤ) <
      (2 : ℤ) * (3 : ℤ) ∧
    (((w64 "x").1 + (1 : ℤ) * (w64 "x").2) % (3 : ℤ) + (1 : ℤ) * (3 : ℤ)) / (3 : ℤ) =
      (1 : ℤ) := by
  have h := index_derivation w64 2 3 "x" 1 (by decide) (by decide)
  exact_mod_cast h

theorem lor_two_pow_eq_self (mem n : ℕ) (h : mem.testBit n = true) :
    mem ||| 2 ^ n = mem := by
  apply Nat.eq_of_testBit_eq
  intro j
  rw [Nat.testBit_lor]
  by_cases hj : n = j
  · subst hj
    rw [h, Nat.testBit_two_pow_self]
    rfl
  · rw [Nat.testBit_two_pow_of_ne hj, Bool.or_false]

theorem bitSet_eq_testBit (mem : ℕ) (i : ℤ) : bitSet mem i = mem.testBit i.toNat := by
  rw [bitSet, Nat.one_shiftLeft]
  cases h : mem.testBit i.toNat with
  | true =>
    rw [lor_two_pow_eq_self mem _ h]
    exact beq_self_eq_true mem
  | false =>
    apply beq_eq_false_iff_ne.mpr
    intro heq
    have ht := congrArg (fun x => Nat.testBit x i.toNat) heq
    simp only [Nat.testBit_lor, Nat.testBit_two_pow_self, Bool.or_true] at ht
    rw [h] at ht
    cases ht

/-- C5: for a hashable element, `contains` returns a boolean that is true iff
every one of the element's derived bit-offsets is set in `memory` (an
order-free characterisation); in the embedding `contains` is a pure function
of the filter, which it does not modify. -/
theorem contains_iff_all_bits (hash64 : Hash64) (f : BloomFilter) (e : PyElem)
    (s : String) (h : normalize e = some s) :
    (∃ b, contains hash64 f e = .ok b) ∧
    (contains hash64 f e = .ok true ↔
      ∀ idx ∈ hashIndices hash64 f.k f.m s, f.memory.testBit idx.toNat = true) := by
  rw [contains_eq_all hash64 f e s h]
  refine ⟨⟨_, rfl⟩, ?_, ?_⟩
  · intro hok idx hidx
    have hb := List.all_eq_true.mp (Except.ok.inj hok) idx hidx
    rw [← bitSet_eq_testBit]
    exact hb
  · intro hall
    refine congrArg Except.ok (List.all_eq_true.mpr fun i hi => ?_)
    rw [bitSet_eq_testBit]
    exact hall i hi

/-- Witness for C5: the filter `wf1` (memory 9) and the element `5`. -/
theorem contains_iff_all_bits_witness :
    (∃ b, contains w64 wf1 (PyElem.int 5) = .ok b) ∧
    (contains w64 wf1 (PyElem.int 5) = .ok true ↔
      ∀ idx ∈ hashIndices w64 wf1.k wf1.m "0b101",
        wf1.memory.testBit idx.toNat = true) :=
  contains_iff_all_bits w64 wf1 (PyElem.int 5) "0b101" rfl

theorem contains_zero_mem (hash64 : Hash64) (f : BloomFilter) (e : PyElem)
    (s : String) (hk : 0 < f.k) (hmem : f.memory = 0) (h : normalize e = some s) :
    contains hash64 f e = .ok false := by
  rw [contains_eq_all hash64 f e s h, hmem]
  refine congrArg Except.ok ?_
  cases hall : (hashIndices hash64 f.k f.m s).all (bitSet 0) with
  | false => rfl
  | true =>
    exfalso
    have hlen : (hashIndices hash64 f.k f.m s).length = f.k := by
      simp only [hashIndices, List.length_map, List.length_range]
    have hne : hashIndices hash64 f.k f.m s ≠ [] := by
      intro hnil
      rw [hnil] at hlen
      simp only [List.length_nil] at hlen
      omega
    obtain ⟨a, ha⟩ := List.exists_mem_of_ne_nil _ hne
    have hb := List.all_eq_true.mp hall a ha
    rw [bitSet_eq_testBit] at hb
    simp [Nat.zero_testBit] at hb

/-- C6: with valid construction parameters, a freshly constructed filter
reports `contains e = false` for every hashable element, and so does any
filter immediately after `_clear`. -/
theorem empty_filter_contains_false (hash64 : Hash64) (n : ℤ) (fp_rate : ℚ)
    (e : PyElem) (s : String) (g : BloomFilter)
    (hn : 0 < n) (h0 : 0 < fp_rate) (h1 : fp_rate < 1)
    (he : normalize e = some s) (hg : 0 < g.k) :
    (∃ f, new n fp_rate = .ok f ∧ contains hash64 f e = .ok false) ∧
    contains hash64 (clear g) e = .ok false := by
  constructor
  · refine ⟨_, new_ok n fp_rate ⟨hn, h0, h1⟩, ?_⟩
    refine contains_zero_mem hash64 _ e s ?_ rfl he
    show 0 < (calc_k fp_rate).toNat
    have := calc_k_pos fp_rate h0 h1
    omega
  · exact contains_zero_mem hash64 (clear g) e s hg rfl he

/-- Witness for C6: parameters `(100, 1/100)`, element `"a"`, and `wf1` as the
filter being cleared. -/
theorem empty_filter_contains_false_witness :
    (∃ f, new 100 (1/100) = .ok f ∧ contains w64 f (PyElem.str "a") = .ok false) ∧
    contains w64 (clear wf1) (PyElem.str "a") = .ok false :=
  empty_filter_contains_false w64 100 (1/100) (PyElem.str "a") "a" wf1
    (by norm_num) (by norm_num) (by norm_num) rfl (by decide)

theorem addTolerant_comm (hash64 : Hash64) (f : BloomFilter) (a b : PyElem) :
    addTolerant hash64 (addTolerant hash64 f a) b =
      addTolerant hash64 (addTolerant hash64 f b) a := by
  simp only [addTolerant_eq]
  rw [Nat.lor_assoc, Nat.lor_comm (elemMask hash64 f.k f.m a), ← Nat.lor_assoc]

theorem addMany_perm (hash64 : Hash64) (f : BloomFilter) (l1 l2 : List PyElem)
    (h : l1.Perm l2) : addMany hash64 f l1 = addMany hash64 f l2 := by
  induction h generalizing f with
  | nil => rfl
  | cons x _ ih => exact ih (addTolerant hash64 f x)
  | swap x y l =>
    show addMany hash64 (addTolerant hash64 (addTolerant hash64 f y) x) l =
      addMany hash64 (addTolerant hash64 (addTolerant hash64 f x) y) l
    rw [addTolerant_comm]
  | trans _ _ ih1 ih2 => exact (ih1 f).trans (ih2 f)

/-- C7: two permuted sequences of `add` calls (repetitions allowed, failing
adds leaving the state untouched) produce identical filters from the same
start state, hence identical `contains` answers for every element. -/
theorem add_order_independent (hash64 : Hash64) (f : BloomFilter)
    (l1 l2 : List PyElem) (h : l1.Perm l2) :
    addMany hash64 f l1 = addMany hash64 f l2 ∧
    ∀ e, contains hash64 (addMany hash64 f l1) e =
      contains hash64 (addMany hash64 f l2) e := by
  have hm := addMany_perm hash64 f l1 l2 h
  exact ⟨hm, fun e => by rw [hm]⟩

/-- Witness for C7: the two orders of adding `5` and `"x"` to `wf0`. -/
theorem add_order_independent_witness :
    addMany w64 wf0 [PyElem.int 5, PyElem.str "x"] =
      addMany w64 wf0 [PyElem.str "x", PyElem.int 5] ∧
    ∀ e, contains w64 (addMany w64 wf0 [PyElem.int 5, PyElem.str "x"]) e =
      contains w64 (addMany w64 wf0 [PyElem.str "x", PyElem.int 5]) e :=
  add_order_independent w64 wf0 _ _ (List.Perm.swap (PyElem.str "x") (PyElem.int 5) [])

/-- C8: `add` on an unhashable element fails with a `HashingError`, and the
filter state after the failed call is exactly the state before it (the hash
is computed before any bit is mutated). -/
theorem add_hashing_error_atomic (hash64 : Hash64) (f : BloomFilter) (e : PyElem)
    (h : normalize e = none) :
    add hash64 f e = .error .hashingError ∧ addTolerant hash64 f e = f := by
  refine ⟨add_err_eq hash64 f e h, ?_⟩
  rw [addTolerant, add_err_eq hash64 f e h]

/-- Witness for C8: an unhashable element against `wf0`. -/
theorem add_hashing_error_atomic_witness :
    add w64 wf0 (PyElem.other 0) = .error .hashingError ∧
    addTolerant w64 wf0 (PyElem.other 0) = wf0 :=
  add_hashing_error_atomic w64 wf0 (PyElem.other 0) rfl

/-- C9: integers are hashed through their textual binary rendering (`bin`,
with the standard sign/prefix convention: `bin 5 = "0b101"`,
`bin (-5) = "-0b101"`), so an integer and the string equal to that rendering
derive identical indices, `add`/`contains` treat them identically, and once
the integer is added both it and the string test as contained. -/
theorem int_binary_normalization (hash64 : Hash64) (f f' : BloomFilter) (z : ℤ)
    (h : add hash64 f (PyElem.int z) = .ok f') :
    bin 5 = "0b101" ∧ bin (-5) = "-0b101" ∧
    hash_element hash64 f (PyElem.int z) = hash_element hash64 f (PyElem.str (bin z)) ∧
    add hash64 f (PyElem.int z) = add hash64 f (PyElem.str (bin z)) ∧
    contains hash64 f (PyElem.int z) = contains hash64 f (PyElem.str (bin z)) ∧
    contains hash64 f' (PyElem.int z) = .ok true ∧
    contains hash64 f' (PyElem.str (bin z)) = .ok true := by
  have hc := contains_after_add hash64 f f' (PyElem.int z) h
  exact ⟨rfl, rfl, rfl, rfl, rfl, hc, hc⟩

/-- Witness for C9: adding the integer 5 to `wf0` yields `wf1`. -/
theorem int_binary_normalization_witness :
    bin 5 = "0b101" ∧ bin (-5) = "-0b101" ∧
    hash_element w64 wf0 (PyElem.int 5) = hash_element w64 wf0 (PyElem.str (bin 5)) ∧
    add w64 wf0 (PyElem.int 5) = add w64 wf0 (PyElem.str (bin 5)) ∧
    contains w64 wf0 (PyElem.int 5) = contains w64 wf0 (PyElem.str (bin 5)) ∧
    contains w64 wf1 (PyElem.int 5) = .ok true ∧
    contains w64 wf1 (PyElem.str (bin 5)) = .ok true :=
  int_binary_normalization w64 wf0 wf1 5 rfl

/-- C10: `contains` on an unhashable element does not return a boolean: it
fails with the same `HashingError` that `add` raises for that element (the
filter, which `contains` never mutates, is unchanged). -/
theorem contains_hashing_error (hash64 : Hash64) (f : BloomFilter) (e : PyElem)
    (h : normalize e = none) :
    contains hash64 f e = .error .hashingError ∧
    add hash64 f e = .error .hashingError ∧
    ∀ b, contains hash64 f e ≠ .ok b := by
  refine ⟨contains_err_eq hash64 f e h, add_err_eq hash64 f e h, fun b hb => ?_⟩
  rw [contains_err_eq hash64 f e h] at hb
  cases hb

/-- Witness for C10: an unhashable element against `wf0`. -/
theorem contains_hashing_error_witness :
    contains w64 wf0 (PyElem.other 7) = .error .hashingError ∧
    add w64 wf0 (PyElem.other 7) = .error .hashingError ∧
    ∀ b, contains w64 wf0 (PyElem.other 7) ≠ .ok b :=
  contains_hashing_error w64 wf0 (PyElem.other 7) rfl

end Bloom
